import Mathlib

/-!
A verification development for the price estimation core of the pyth-client
repository: a shallow embedding of the time primitives (`pc/ext/timestamp.hpp`),
the candle-ring volatility estimator (`pc/ext/candle_model.cpp`), the standard
price estimator (`pc/ext/price_model.cpp`) and the replay driver loop
(`pctest/test_price_model.hpp`), together with theorems about them.

Conventions of the embedding:
* C++ `timestamp` (`uint64_t`) is a `Nat` reduced mod `2 ^ 64` where the code
  casts; `nsecs` (`int64_t`) is an `Int` (the claims are settled on inputs
  where signed arithmetic does not overflow).  The `uint64 -> int64` cast of
  `as_ns` and the truncating C++ `/` are modelled exactly (`Int.tdiv`).
* C++ `double` (`price_interval`) is modelled by exact arithmetic: the ring
  state holds `ℚ` (the `int64 -> double` casts of prices), and the
  transcendental volatility / confidence values live in `ℝ`.
* `PC_ASSERT*` throws; any operation that can fail an assertion returns an
  `Option`, with `none` for the assertion failure.
-/

/-! ## Time primitives (`pc/ext/timestamp.hpp`) -/

def U64_MOD : Nat := 2 ^ 64

def NS_PER_US : Int := 1000

def NS_PER_MS : Int := NS_PER_US * 1000

def NS_PER_SEC : Int := NS_PER_MS * 1000

def NS_PER_MIN : Int := NS_PER_SEC * 60

def NS_PER_HOUR : Int := NS_PER_MIN * 60

def NS_PER_DAY : Int := NS_PER_HOUR * 24

def NS_PER_YEAR : Int := NS_PER_DAY * 365

/-- The `static_cast< nsecs >( ts )` of `as_ns`: reinterpret a `uint64_t`
value as a signed `int64_t`. -/
def as_ns (ts : Nat) : Int :=
  let r := ts % U64_MOD
  if r < 2 ^ 63 then (r : Int) else (r : Int) - (U64_MOD : Int)

/-- The `static_cast< timestamp >( x )` converting a signed `int64_t`
back to `uint64_t`. -/
def to_u64 (x : Int) : Nat := (x % (U64_MOD : Int)).toNat

def add_time (ts : Nat) (ns : Int) : Nat := to_u64 (as_ns ts + ns)

def diff_times (ts1 ts2 : Nat) : Int := as_ns ts1 - as_ns ts2

/-- `floor_time( ts, interval ) = as_ns( ts ) / interval * interval` with the
truncating (round toward zero) division of C++. -/
def floor_time (ts : Nat) (interval : Int) : Nat :=
  to_u64 ((as_ns ts).tdiv interval * interval)

/-- The property the specification ascribes to `floor_time`: the result is the
greatest multiple of `interval` that is `≤ ts`. -/
def is_greatest_multiple (r ts : Nat) (interval : Int) : Prop :=
  interval.toNat ∣ r ∧ r ≤ ts ∧ ∀ k : Nat, interval.toNat ∣ k → k ≤ ts → k ≤ r

/-! ## Basic price types (`pc/ext/price_model.hpp`) -/

/-- The `as_interval` cast `int64 -> double`, modelled exactly in `ℚ`. -/
def as_interval (x : Int) : ℚ := (x : ℚ)

structure price_time where
  price : Int
  time : Nat
deriving DecidableEq

structure price_estimate where
  price : Int
  conf : ℝ

structure price_range where
  high : Int
  low : Int
deriving DecidableEq

def price_range.add_price (r : price_range) (p : Int) : price_range :=
  { high := max r.high p, low := min r.low p }

def price_range.interval (r : price_range) : ℚ :=
  as_interval (r.high - r.low) / 2

/-! ## Candle model state (`pc/ext/candle_model.cpp`)

The three parallel vectors of size `capacity_` are modelled as functions
`Nat → _` read and written at ring indices `(front + i) % capacity`. -/

structure candle_model where
  capacity : Nat
  candle_ns : Int
  count : Nat
  front : Nat
  starts : Nat → Nat
  highs : Nat → ℚ
  lows : Nat → ℚ

def DEFAULT_LOOKBACK : Nat := 20

def DEFAULT_DURATION : Int := NS_PER_MIN * 1

/-- The `candle_model` constructor: `capacity_ = 1 + lookback`, asserting
`capacity_ > 1` and `candle_ns_ > 0`; the vectors are zero-initialised by
`resize`. -/
def mk_candle_model (lookback : Option Nat) (candle_ns : Option Int) :
    Option candle_model :=
  let cap := 1 + lookback.getD DEFAULT_LOOKBACK
  let dur := candle_ns.getD DEFAULT_DURATION
  if 1 < cap ∧ 0 < dur then
    some { capacity := cap, candle_ns := dur, count := 0, front := 0,
           starts := fun _ => 0, highs := fun _ => 0, lows := fun _ => 0 }
  else none

/-- The "prepend new candle" block of `candle_model::add_trade`. -/
def candle_model.push_front (m : candle_model) (start : Nat) (price : ℚ) :
    candle_model :=
  let f := (m.front + m.capacity - 1) % m.capacity
  { m with front := f,
           count := min (m.count + 1) m.capacity,
           highs := Function.update m.highs f price,
           lows := Function.update m.lows f price,
           starts := Function.update m.starts f start }

/-- The final widening step of `candle_model::add_trade`:
`highs_[front_] = max(highs_[front_], price)` and dually for `lows_`. -/
def candle_model.widen_front (m : candle_model) (price : ℚ) : candle_model :=
  { m with highs := Function.update m.highs m.front (max (m.highs m.front) price),
           lows := Function.update m.lows m.front (min (m.lows m.front) price) }

/-- `candle_model::add_trade`; `none` models the `PC_ASSERT_EQ( start,
starts_[ front_ ] )` failure. -/
def candle_model.add_trade (m : candle_model) (trade : price_time) :
    Option candle_model :=
  let price := as_interval trade.price
  let start := floor_time trade.time m.candle_ns
  let m1 := if m.count = 0 ∨ m.starts m.front < start
    then m.push_front start price else m
  if start = m1.starts m1.front then some (m1.widen_front price) else none

/-- Feed a list of trades in order; `none` if any `add_trade` asserts. -/
def add_trades (m : candle_model) : List price_time → Option candle_model
  | [] => some m
  | t :: ts =>
    match m.add_trade t with
    | none => none
    | some m1 => add_trades m1 ts

/-- The data read by iteration `i` of the `eval_volatility` loop:
`(max_high, min_low, cur_end - prev_start)`. -/
def candle_model.triple_val (m : candle_model) (i : Nat) : ℚ × ℚ × Int :=
  let cur := (m.front + i) % m.capacity
  let prev := (cur + 1) % m.capacity
  (max (m.highs cur) (m.highs prev),
   min (m.lows cur) (m.lows prev),
   diff_times (add_time (m.starts cur) m.candle_ns) (m.starts prev))

/-- Iteration `i` of the `eval_volatility` loop with its three assertions
(`min_low > 0`, `min_low ≤ max_high`, `cur_end > prev_start`); the last
comparison is on `timestamp` (unsigned) values, as in the source. -/
def candle_model.vol_triple (m : candle_model) (i : Nat) :
    Option (ℚ × ℚ × Int) :=
  let cur := (m.front + i) % m.capacity
  let prev := (cur + 1) % m.capacity
  if 0 < min (m.lows cur) (m.lows prev) ∧
      min (m.lows cur) (m.lows prev) ≤ max (m.highs cur) (m.highs prev) ∧
      m.starts prev < add_time (m.starts cur) m.candle_ns
  then some (m.triple_val i) else none

/-- The first `n` loop iterations of `eval_volatility`, in order. -/
def candle_model.vol_triples (m : candle_model) : Nat → Option (List (ℚ × ℚ × Int))
  | 0 => some []
  | n + 1 =>
    match m.vol_triples n, m.vol_triple n with
    | some l, some t => some (l ++ [t])
    | _, _ => none

/-- The decidable skeleton of `candle_model::eval_volatility`: outer `none` is
an assertion failure, `some none` is the warm-up "no estimate", and
`some (some l)` carries the per-iteration data of the loop. -/
def candle_model.eval_vol_pairs (m : candle_model) :
    Option (Option (List (ℚ × ℚ × Int))) :=
  if m.count ≤ m.capacity then
    if m.count < m.capacity then some none
    else (m.vol_triples (m.count - 1)).map some
  else none

/-- The arithmetic of `eval_volatility` on the loop data:
`numer = Σ log(max_high/min_low)²`, `denom = (Σ (cur_end - prev_start)) · (log 2 · 4)`,
result `sqrt(numer / denom · NS_PER_YEAR)`. -/
noncomputable def vol_value (l : List (ℚ × ℚ × Int)) : ℝ :=
  let numer := (l.map fun t => Real.log ((t.1 : ℝ) / (t.2.1 : ℝ)) ^ 2).sum
  let denom := (l.map fun t => ((t.2.2 : Int) : ℝ)).sum * (Real.log 2 * 4)
  Real.sqrt (numer / denom * (NS_PER_YEAR : ℝ))

/-- `candle_model::eval_volatility`. -/
noncomputable def candle_model.eval_volatility (m : candle_model) :
    Option (Option ℝ) :=
  m.eval_vol_pairs.map (Option.map vol_value)

/-- `candle_model::eval_at_time` ignores its timestamp argument and calls
`eval_volatility`. -/
noncomputable def candle_model.eval_at_time (m : candle_model) (_t : Nat) :
    Option (Option ℝ) :=
  m.eval_volatility

/-! ## Spec-side views of the ring used to state the claims -/

/-- The `i`-th newest stored candle's start (ring index `(front + i) % capacity`). -/
def candle_model.nth_start (m : candle_model) (i : Nat) : Nat :=
  m.starts ((m.front + i) % m.capacity)

/-- The `i`-th newest stored candle's high. -/
def candle_model.nth_high (m : candle_model) (i : Nat) : ℚ :=
  m.highs ((m.front + i) % m.capacity)

/-- The `i`-th newest stored candle's low. -/
def candle_model.nth_low (m : candle_model) (i : Nat) : ℚ :=
  m.lows ((m.front + i) % m.capacity)

/-- The volatility numerator as the specification words it: the sum over
adjacent pairs of `ln(max(cur.high, prev.high) / min(cur.low, prev.low))²`. -/
noncomputable def candle_model.spec_numer (m : candle_model) : ℝ :=
  ((List.range (m.count - 1)).map fun i =>
    Real.log (((max (m.nth_high i) (m.nth_high (i + 1)) : ℚ) : ℝ) /
      ((min (m.nth_low i) (m.nth_low (i + 1)) : ℚ) : ℝ)) ^ 2).sum

/-- The pre-scaling volatility denominator as the specification words it: the
sum over adjacent pairs of `cur.start + candle_duration_ns - prev.start`. -/
def candle_model.spec_denom (m : candle_model) : Int :=
  ((List.range (m.count - 1)).map fun i =>
    (m.nth_start i : Int) + m.candle_ns - (m.nth_start (i + 1) : Int)).sum

/-- The candle buckets of a trade sequence. -/
def buckets (dur : Int) (ts : List price_time) : List Nat :=
  ts.map fun tr => floor_time tr.time dur

/-! ## Standard price model (`pc/ext/price_model.cpp`) -/

structure standard_price_model where
  vol : candle_model
  min_interval : ℚ
  init_volatility : ℚ
  timeout_ns : Int
  min_slot_ns : Int
  last_trade : Option price_time
  range_since_eval : Option price_range

def DEFAULT_TIMEOUT : Int := NS_PER_SEC * 60

def DEFAULT_MIN_SLOT : Int := NS_PER_MS * 500

/-- The default `min_conf_interval` `0.01` (as the exact rational `1/100`;
`mkRat` keeps the constant kernel-reducible). -/
def DEFAULT_MIN_INTERVAL : ℚ := mkRat 1 100

def DEFAULT_VOLATILITY : ℚ := 1

/-- The `standard_price_model` constructor, defaulting the volatility model to
a fresh `candle_model` and asserting the configuration preconditions. -/
def mk_standard_price_model (vol : Option candle_model) (min_conf : Option ℚ)
    (timeout : Option Int) (min_slot : Option Int) (init_vol : Option ℚ) :
    Option standard_price_model :=
  match (match vol with
         | some v => some v
         | none => mk_candle_model none none) with
  | none => none
  | some v =>
    let mi := min_conf.getD DEFAULT_MIN_INTERVAL
    let iv := init_vol.getD DEFAULT_VOLATILITY
    let tmo := timeout.getD DEFAULT_TIMEOUT
    let ms := min_slot.getD DEFAULT_MIN_SLOT
    if 0 ≤ mi ∧ 0 ≤ iv ∧ 0 ≤ ms ∧ ms < tmo then
      some { vol := v, min_interval := mi, init_volatility := iv,
             timeout_ns := tmo, min_slot_ns := ms,
             last_trade := none, range_since_eval := none }
    else none

/-- `standard_price_model::add_trade`: forwards to the volatility model first
(so its assertion failure leaves the rest untouched), then opens/widens
`range_since_eval_` and overwrites `last_trade_`. -/
def standard_price_model.add_trade (m : standard_price_model)
    (trade : price_time) : Option standard_price_model :=
  match m.vol.add_trade trade with
  | none => none
  | some v =>
    let r0 := match m.range_since_eval with
      | none => ({ high := trade.price, low := trade.price } : price_range)
      | some r => r
    some { m with vol := v,
                  range_since_eval := some (r0.add_price trade.price),
                  last_trade := some trade }

/-- `standard_price_model::eval_at_time`, returning the optional estimate
together with the post-call state; outer `none` models an assertion failure
(`ns_since_trade < 0`, or an assertion inside the volatility model). -/
noncomputable def standard_price_model.eval_at_time (m : standard_price_model)
    (now : Nat) : Option (Option (Int × ℝ) × standard_price_model) :=
  match m.last_trade with
  | none => some (none, m)
  | some lt =>
    let ns_since_trade := diff_times now lt.time
    if 0 ≤ ns_since_trade then
      if m.timeout_ns < ns_since_trade then some (none, m)
      else
        match m.vol.eval_at_time now with
        | none => none
        | some yearly_vol =>
          let years : ℝ :=
            ((max ns_since_trade m.min_slot_ns : Int) : ℝ) / ((NS_PER_YEAR : Int) : ℝ)
          let conf0 : ℝ :=
            (yearly_vol.getD ((m.init_volatility : ℚ) : ℝ))
              * Real.sqrt years * ((lt.price : Int) : ℝ)
          let conf1 : ℝ := max conf0 ((m.min_interval : ℚ) : ℝ)
          match m.range_since_eval with
          | some r =>
            some (some (lt.price, max conf1 ((r.interval : ℚ) : ℝ)),
                  { m with range_since_eval := none })
          | none => some (some (lt.price, conf1), m)
    else none

/-- The confidence value produced by a successful `eval_at_time` when the
volatility model's loop data is `vp`. -/
noncomputable def spm_conf (m : standard_price_model) (now : Nat)
    (lt : price_time) (vp : Option (List (ℚ × ℚ × Int))) : ℝ :=
  let years : ℝ :=
    ((max (diff_times now lt.time) m.min_slot_ns : Int) : ℝ) / ((NS_PER_YEAR : Int) : ℝ)
  let conf0 : ℝ :=
    ((vp.map vol_value).getD ((m.init_volatility : ℚ) : ℝ))
      * Real.sqrt years * ((lt.price : Int) : ℝ)
  let conf1 : ℝ := max conf0 ((m.min_interval : ℚ) : ℝ)
  match m.range_since_eval with
  | some r => max conf1 ((r.interval : ℚ) : ℝ)
  | none => conf1

/-! ## Replay driver (`pctest/test_price_model.hpp`, `run`)

The loop interleaves trades and evaluations; with current evaluation time `e`
it feeds trades while `e > trade.time`, and once evaluations are exhausted the
sentinel `2 ^ 64 - 1` (`std::numeric_limits<timestamp>::max()`) plays the role
of `e`, the loop breaking at the first trade that fails that comparison. -/

def run_schedule : List price_time → List Nat → List (price_time ⊕ Nat)
  | trades, [] => (trades.takeWhile fun tr => tr.time < 2 ^ 64 - 1).map Sum.inl
  | trades, e :: es =>
    ((trades.takeWhile fun tr => tr.time < e).map Sum.inl)
      ++ Sum.inr e :: run_schedule (trades.dropWhile fun tr => tr.time < e) es

/-- The trades among a list of schedule events. -/
def fed_trades (l : List (price_time ⊕ Nat)) : List price_time :=
  l.filterMap fun x => match x with
    | Sum.inl t => some t
    | Sum.inr _ => none

/-! ## Ring invariant -/

/-- The well-formedness invariant of the candle ring, relative to the finite
set `B` of candle buckets seen so far. -/
structure candle_ok (m : candle_model) (B : Finset Nat) : Prop where
  cap2 : 2 ≤ m.capacity
  front_lt : m.front < m.capacity
  count_le : m.count ≤ m.capacity
  count_eq : m.count = min B.card m.capacity
  front_mem : 0 < m.count → m.starts m.front ∈ B
  bucket_le : ∀ x ∈ B, x ≤ m.starts m.front
  start_decr : ∀ i, i + 1 < m.count → m.nth_start (i + 1) < m.nth_start i
  low_le_high : ∀ i, i < m.count → m.nth_low i ≤ m.nth_high i

/-! ## Concrete states used by closed theorems -/

def default_trade : price_time := { price := 0, time := 0 }

def junk_candle : candle_model :=
  { capacity := 0, candle_ns := 0, count := 0, front := 0,
    starts := fun _ => 0, highs := fun _ => 0, lows := fun _ => 0 }

def junk_spm : standard_price_model :=
  { vol := junk_candle, min_interval := 0, init_volatility := 0,
    timeout_ns := 0, min_slot_ns := 0, last_trade := none,
    range_since_eval := none }

/-- The default-configured price model of scenario 2 of the specification. -/
def spm6_start : standard_price_model :=
  (mk_standard_price_model none none none none none).getD junk_spm

/-- The state after the single trade `(price = 100, t = 0)`. -/
def spm6_m1 : standard_price_model :=
  (spm6_start.add_trade { price := 100, time := 0 }).getD junk_spm

/-- The evaluation of the scenario at `t = 0`. -/
noncomputable def spm6_eval : Option (Option (Int × ℝ) × standard_price_model) :=
  spm6_m1.eval_at_time 0

/-- The confidence value that evaluation produces. -/
noncomputable def spm6_conf : ℝ :=
  spm_conf spm6_m1 0 { price := 100, time := 0 } none

/-- Concrete models used by witnesses of the warm-up claim. -/
def c2w_m0 : candle_model :=
  (mk_candle_model (some 1) (some 1)).getD junk_candle

def c2w_m1 : candle_model :=
  (add_trades c2w_m0 [{ price := 5, time := 0 }]).getD junk_candle

/-- Concrete models used by witnesses of the ring-invariant claim. -/
def c4w_m0 : candle_model :=
  (mk_candle_model (some 1) (some 1)).getD junk_candle

def c4w_m1 : candle_model :=
  (add_trades c4w_m0 [{ price := 5, time := 0 }, { price := 7, time := 1 }]).getD junk_candle

/-- Concrete model used by the witness of the same-bucket overwrite claim. -/
def c10w_vol : candle_model :=
  { capacity := 2, candle_ns := 10, count := 1, front := 0,
    starts := fun _ => 0, highs := fun _ => 100, lows := fun _ => 100 }

def c10w_m : standard_price_model :=
  { vol := c10w_vol, min_interval := 1 / 100, init_volatility := 1,
    timeout_ns := 60, min_slot_ns := 1,
    last_trade := some { price := 100, time := 7 },
    range_since_eval := some { high := 100, low := 100 } }

/-- A full two-candle ring used by the witness of the volatility formula. -/
def c1w_m : candle_model :=
  { capacity := 2, candle_ns := 1, count := 2, front := 0,
    starts := fun n => if n = 0 then 1 else 0,
    highs := fun _ => 2, lows := fun _ => 1 }

/-- Concrete states used by the witnesses of the evaluation frame claims. -/
def c9w_vol : candle_model :=
  { capacity := 2, candle_ns := 10, count := 0, front := 0,
    starts := fun _ => 0, highs := fun _ => 0, lows := fun _ => 0 }

def c9w_m : standard_price_model :=
  { vol := c9w_vol, min_interval := 1 / 100, init_volatility := 1,
    timeout_ns := 60, min_slot_ns := 1,
    last_trade := some { price := 100, time := 5 },
    range_since_eval := some { high := 110, low := 90 } }

def c8w_m : standard_price_model :=
  { vol := c9w_vol, min_interval := 1 / 100, init_volatility := 1,
    timeout_ns := 60, min_slot_ns := 1,
    last_trade := some { price := 100, time := 5 },
    range_since_eval := some { high := 110, low := 90 } }

/-! ## Lemmas about the time primitives -/

lemma as_ns_of_lt {ts : Nat} (h : ts < 2 ^ 63) : as_ns ts = (ts : Int) := by
  have h2 : ts % U64_MOD = ts :=
    Nat.mod_eq_of_lt (Nat.lt_of_lt_of_le h (by norm_num [U64_MOD]))
  simp only [as_ns, h2, if_pos h]

lemma to_u64_of_nonneg_lt {x : Int} (h0 : 0 ≤ x) (h1 : x < 2 ^ 64) :
    to_u64 x = x.toNat := by
  unfold to_u64
  rw [Int.emod_eq_of_lt h0 (by simpa [U64_MOD] using h1)]

lemma floor_time_eq {ts : Nat} {i : Int} (h : ts < 2 ^ 63) (hi : 0 < i) :
    floor_time ts i = ts / i.toNat * i.toNat := by
  obtain ⟨k, rfl⟩ : ∃ k : Nat, i = (k : Int) :=
    ⟨i.toNat, (Int.toNat_of_nonneg hi.le).symm⟩
  rw [Int.toNat_natCast]
  have hmul : (ts : Int).tdiv (k : Int) * (k : Int) = ((ts / k * k : Nat) : Int) := by
    rw [← Int.ofNat_tdiv]
    push_cast
    ring
  have hle : ts / k * k ≤ ts := Nat.div_mul_le_self ts k
  unfold floor_time
  rw [as_ns_of_lt h, hmul,
    to_u64_of_nonneg_lt (Int.natCast_nonneg _)
      (by exact_mod_cast Nat.lt_of_lt_of_le (Nat.lt_of_le_of_lt hle h) (by norm_num)),
    Int.toNat_natCast]

lemma floor_time_le {ts : Nat} {i : Int} (h : ts < 2 ^ 63) (hi : 0 < i) :
    floor_time ts i ≤ ts := by
  rw [floor_time_eq h hi]
  exact Nat.div_mul_le_self ts i.toNat

lemma floor_time_lt_word {ts : Nat} {i : Int} (h : ts < 2 ^ 63) (hi : 0 < i) :
    floor_time ts i < 2 ^ 63 :=
  Nat.lt_of_le_of_lt (floor_time_le h hi) h

lemma diff_times_add_time {s p : Nat} {d : Int} (hs : s < 2 ^ 63)
    (hp : p < 2 ^ 63) (hd : 0 < d) (hsd : (s : Int) + d < 2 ^ 63) :
    diff_times (add_time s d) p = (s : Int) + d - (p : Int) := by
  have h0 : (0 : Int) ≤ (s : Int) + d := by positivity
  have hlt64 : (s : Int) + d < 2 ^ 64 := lt_trans hsd (by norm_num)
  have ha : add_time s d = ((s : Int) + d).toNat := by
    unfold add_time
    rw [as_ns_of_lt hs, to_u64_of_nonneg_lt h0 hlt64]
  have htn : (((s : Int) + d).toNat : Int) = (s : Int) + d := Int.toNat_of_nonneg h0
  have htlt : ((s : Int) + d).toNat < 2 ^ 63 := by
    omega
  unfold diff_times
  rw [ha, as_ns_of_lt htlt, as_ns_of_lt hp, htn]

/-! ## Claim C7: `floor_time` and the greatest multiple -/

/-- C7 counterexample: the claim "for every timestamp `ts` and every
`interval > 0`, `floor_time(ts, interval)` yields the greatest multiple of
`interval` that is `≤ ts`" fails at `ts = 2 ^ 64 - 1`, `interval = 2`:
the `uint64 -> int64` cast makes `as_ns ts = -1`, truncating division gives
`0`, yet `2 ^ 64 - 2` is a larger multiple of `2` that is `≤ ts`. -/
theorem floor_time_greatest_multiple_cex :
    floor_time (2 ^ 64 - 1) 2 = 0 ∧
      ¬ is_greatest_multiple (floor_time (2 ^ 64 - 1) 2) (2 ^ 64 - 1) 2 := by
  have h0 : floor_time (2 ^ 64 - 1) 2 = 0 := by decide
  refine ⟨h0, fun hg => ?_⟩
  have h1 := hg.2.2 (2 ^ 64 - 2) ⟨2 ^ 63 - 1, by decide⟩ (by norm_num)
  rw [h0] at h1
  norm_num at h1

/-- C7 (amended): for every timestamp `ts < 2 ^ 63` (i.e. whose `int64`
reinterpretation is non-negative) and every `interval > 0`,
`floor_time ts interval` is the greatest multiple of `interval` that is
`≤ ts`. -/
theorem floor_time_greatest_multiple (ts : Nat) (interval : Int)
    (hts : ts < 2 ^ 63) (hi : 0 < interval) :
    is_greatest_multiple (floor_time ts interval) ts interval := by
  have hk : 0 < interval.toNat := by omega
  rw [floor_time_eq hts hi]
  refine ⟨dvd_mul_left _ _, Nat.div_mul_le_self _ _, fun k hdvd hkle => ?_⟩
  obtain ⟨c, rfl⟩ := hdvd
  have hc : c ≤ ts / interval.toNat := by
    rw [Nat.le_div_iff_mul_le hk, Nat.mul_comm]
    exact hkle
  calc interval.toNat * c ≤ interval.toNat * (ts / interval.toNat) :=
        Nat.mul_le_mul_left _ hc
    _ = ts / interval.toNat * interval.toNat := Nat.mul_comm _ _

theorem floor_time_greatest_multiple_witness :
    7 < 2 ^ 63 ∧ (0 : Int) < 3 ∧ is_greatest_multiple (floor_time 7 3) 7 3 :=
  ⟨by norm_num, by norm_num,
    floor_time_greatest_multiple 7 3 (by norm_num) (by norm_num)⟩

/-! ## Ring index arithmetic -/

lemma ring_front_idx {front cap : Nat} (h : front < cap) :
    (front + 0) % cap = front := by
  simpa using Nat.mod_eq_of_lt h

lemma pushed_front_lt {front cap : Nat} (h : 0 < cap) :
    (front + cap - 1) % cap < cap :=
  Nat.mod_lt _ h

lemma ring_shift {front cap i : Nat} (hcap : 0 < cap) (h1 : 1 ≤ i) :
    ((front + cap - 1) % cap + i) % cap = (front + (i - 1)) % cap := by
  rw [Nat.mod_add_mod]
  have h2 : front + cap - 1 + i = front + (i - 1) + cap := by omega
  rw [h2, Nat.add_mod_right]

lemma ring_inj {front cap i j : Nat} (hi : i < cap) (hj : j < cap)
    (h : (front + i) % cap = (front + j) % cap) : i = j := by
  have h1 : i ≡ j [MOD cap] := Nat.ModEq.add_left_cancel' front h
  have h2 : i % cap = j % cap := h1
  rw [Nat.mod_eq_of_lt hi, Nat.mod_eq_of_lt hj] at h2
  exact h2

/-! ## Projection lemmas for the candle operations -/

@[simp] lemma push_front_capacity (m : candle_model) (s : Nat) (p : ℚ) :
    (m.push_front s p).capacity = m.capacity := rfl

@[simp] lemma push_front_candle_ns (m : candle_model) (s : Nat) (p : ℚ) :
    (m.push_front s p).candle_ns = m.candle_ns := rfl

@[simp] lemma push_front_count (m : candle_model) (s : Nat) (p : ℚ) :
    (m.push_front s p).count = min (m.count + 1) m.capacity := rfl

@[simp] lemma push_front_front (m : candle_model) (s : Nat) (p : ℚ) :
    (m.push_front s p).front = (m.front + m.capacity - 1) % m.capacity := rfl

@[simp] lemma push_front_starts (m : candle_model) (s : Nat) (p : ℚ) :
    (m.push_front s p).starts =
      Function.update m.starts ((m.front + m.capacity - 1) % m.capacity) s := rfl

@[simp] lemma push_front_highs (m : candle_model) (s : Nat) (p : ℚ) :
    (m.push_front s p).highs =
      Function.update m.highs ((m.front + m.capacity - 1) % m.capacity) p := rfl

@[simp] lemma push_front_lows (m : candle_model) (s : Nat) (p : ℚ) :
    (m.push_front s p).lows =
      Function.update m.lows ((m.front + m.capacity - 1) % m.capacity) p := rfl

@[simp] lemma widen_front_capacity (m : candle_model) (p : ℚ) :
    (m.widen_front p).capacity = m.capacity := rfl

@[simp] lemma widen_front_candle_ns (m : candle_model) (p : ℚ) :
    (m.widen_front p).candle_ns = m.candle_ns := rfl

@[simp] lemma widen_front_count (m : candle_model) (p : ℚ) :
    (m.widen_front p).count = m.count := rfl

@[simp] lemma widen_front_front (m : candle_model) (p : ℚ) :
    (m.widen_front p).front = m.front := rfl

@[simp] lemma widen_front_starts (m : candle_model) (p : ℚ) :
    (m.widen_front p).starts = m.starts := rfl

@[simp] lemma widen_front_highs (m : candle_model) (p : ℚ) :
    (m.widen_front p).highs =
      Function.update m.highs m.front (max (m.highs m.front) p) := rfl

@[simp] lemma widen_front_lows (m : candle_model) (p : ℚ) :
    (m.widen_front p).lows =
      Function.update m.lows m.front (min (m.lows m.front) p) := rfl

lemma ring_pushed_ne {front cap j : Nat} (hcap : 0 < cap) (hj1 : 1 ≤ j)
    (hjc : j < cap) :
    ((front + cap - 1) % cap + j) % cap ≠ (front + cap - 1) % cap := by
  rw [ring_shift hcap hj1]
  intro h
  have h1 : front + cap - 1 = front + (cap - 1) := by omega
  rw [h1] at h
  have h2 := ring_inj (by omega : j - 1 < cap) (by omega : cap - 1 < cap) h
  omega

lemma ring_widen_ne {front cap j : Nat} (hfront : front < cap) (hj1 : 1 ≤ j)
    (hjc : j < cap) : (front + j) % cap ≠ front := by
  intro h
  have h0 : (front + j) % cap = (front + 0) % cap := by
    rw [ring_front_idx hfront]
    exact h
  have h2 := ring_inj hjc (by omega : 0 < cap) h0
  omega

lemma push_widen_highs (m : candle_model) (b : Nat) (p : ℚ) :
    ((m.push_front b p).widen_front p).highs =
      Function.update m.highs ((m.front + m.capacity - 1) % m.capacity) p := by
  simp only [widen_front_highs, push_front_highs, push_front_front,
    push_front_capacity, Function.update_same, Function.update_idem, max_self]

lemma push_widen_lows (m : candle_model) (b : Nat) (p : ℚ) :
    ((m.push_front b p).widen_front p).lows =
      Function.update m.lows ((m.front + m.capacity - 1) % m.capacity) p := by
  simp only [widen_front_lows, push_front_lows, push_front_front,
    push_front_capacity, Function.update_same, Function.update_idem, min_self]

lemma push_widen_nth_start_zero (m : candle_model) (b : Nat) (p : ℚ)
    (hcap : 0 < m.capacity) :
    ((m.push_front b p).widen_front p).nth_start 0 = b := by
  unfold candle_model.nth_start
  simp only [widen_front_starts, widen_front_front, widen_front_capacity,
    push_front_starts, push_front_front, push_front_capacity]
  rw [ring_front_idx (pushed_front_lt hcap), Function.update_same]

lemma push_widen_nth_start (m : candle_model) (b : Nat) (p : ℚ) {j : Nat}
    (hcap : 0 < m.capacity) (hj1 : 1 ≤ j) (hjc : j < m.capacity) :
    ((m.push_front b p).widen_front p).nth_start j = m.nth_start (j - 1) := by
  unfold candle_model.nth_start
  simp only [widen_front_starts, widen_front_front, widen_front_capacity,
    push_front_starts, push_front_front, push_front_capacity]
  rw [Function.update_noteq (ring_pushed_ne hcap hj1 hjc), ring_shift hcap hj1]

lemma push_widen_nth_high_zero (m : candle_model) (b : Nat) (p : ℚ)
    (hcap : 0 < m.capacity) :
    ((m.push_front b p).widen_front p).nth_high 0 = p := by
  unfold candle_model.nth_high
  rw [push_widen_highs]
  simp only [widen_front_front, widen_front_capacity, push_front_front,
    push_front_capacity]
  rw [ring_front_idx (pushed_front_lt hcap), Function.update_same]

lemma push_widen_nth_high (m : candle_model) (b : Nat) (p : ℚ) {j : Nat}
    (hcap : 0 < m.capacity) (hj1 : 1 ≤ j) (hjc : j < m.capacity) :
    ((m.push_front b p).widen_front p).nth_high j = m.nth_high (j - 1) := by
  unfold candle_model.nth_high
  rw [push_widen_highs]
  simp only [widen_front_front, widen_front_capacity, push_front_front,
    push_front_capacity]
  rw [Function.update_noteq (ring_pushed_ne hcap hj1 hjc), ring_shift hcap hj1]

lemma push_widen_nth_low_zero (m : candle_model) (b : Nat) (p : ℚ)
    (hcap : 0 < m.capacity) :
    ((m.push_front b p).widen_front p).nth_low 0 = p := by
  unfold candle_model.nth_low
  rw [push_widen_lows]
  simp only [widen_front_front, widen_front_capacity, push_front_front,
    push_front_capacity]
  rw [ring_front_idx (pushed_front_lt hcap), Function.update_same]

lemma push_widen_nth_low (m : candle_model) (b : Nat) (p : ℚ) {j : Nat}
    (hcap : 0 < m.capacity) (hj1 : 1 ≤ j) (hjc : j < m.capacity) :
    ((m.push_front b p).widen_front p).nth_low j = m.nth_low (j - 1) := by
  unfold candle_model.nth_low
  rw [push_widen_lows]
  simp only [widen_front_front, widen_front_capacity, push_front_front,
    push_front_capacity]
  rw [Function.update_noteq (ring_pushed_ne hcap hj1 hjc), ring_shift hcap hj1]

lemma widen_nth_start (m : candle_model) (p : ℚ) (j : Nat) :
    (m.widen_front p).nth_start j = m.nth_start j := rfl

lemma widen_nth_high_zero (m : candle_model) (p : ℚ) (hfront : m.front < m.capacity) :
    (m.widen_front p).nth_high 0 = max (m.highs m.front) p := by
  unfold candle_model.nth_high
  simp only [widen_front_highs, widen_front_front, widen_front_capacity]
  rw [ring_front_idx hfront, Function.update_same]

lemma widen_nth_high (m : candle_model) (p : ℚ) {j : Nat}
    (hfront : m.front < m.capacity) (hj1 : 1 ≤ j) (hjc : j < m.capacity) :
    (m.widen_front p).nth_high j = m.nth_high j := by
  unfold candle_model.nth_high
  simp only [widen_front_highs, widen_front_front, widen_front_capacity]
  rw [Function.update_noteq (ring_widen_ne hfront hj1 hjc)]

lemma widen_nth_low_zero (m : candle_model) (p : ℚ) (hfront : m.front < m.capacity) :
    (m.widen_front p).nth_low 0 = min (m.lows m.front) p := by
  unfold candle_model.nth_low
  simp only [widen_front_lows, widen_front_front, widen_front_capacity]
  rw [ring_front_idx hfront, Function.update_same]

lemma widen_nth_low (m : candle_model) (p : ℚ) {j : Nat}
    (hfront : m.front < m.capacity) (hj1 : 1 ≤ j) (hjc : j < m.capacity) :
    (m.widen_front p).nth_low j = m.nth_low j := by
  unfold candle_model.nth_low
  simp only [widen_front_lows, widen_front_front, widen_front_capacity]
  rw [Function.update_noteq (ring_widen_ne hfront hj1 hjc)]

lemma nth_high_zero_eq (m : candle_model) (hfront : m.front < m.capacity) :
    m.nth_high 0 = m.highs m.front := by
  unfold candle_model.nth_high
  rw [ring_front_idx hfront]

lemma nth_low_zero_eq (m : candle_model) (hfront : m.front < m.capacity) :
    m.nth_low 0 = m.lows m.front := by
  unfold candle_model.nth_low
  rw [ring_front_idx hfront]

lemma nth_start_zero_eq (m : candle_model) (hfront : m.front < m.capacity) :
    m.nth_start 0 = m.starts m.front := by
  unfold candle_model.nth_start
  rw [ring_front_idx hfront]

lemma card_zero_of_count_zero {m : candle_model} {B : Finset Nat}
    (g : candle_ok m B) (h : m.count = 0) : B = ∅ := by
  have h1 := g.count_eq
  have h2 := g.cap2
  rw [h] at h1
  have h3 : B.card = 0 := by omega
  exact Finset.card_eq_zero.mp h3

lemma push_widen_ok {m : candle_model} {B : Finset Nat} (g : candle_ok m B)
    (b : Nat) (p : ℚ) (hb : m.count = 0 ∨ m.starts m.front < b) :
    candle_ok ((m.push_front b p).widen_front p) (insert b B) := by
  have hcap : 0 < m.capacity := lt_of_lt_of_le (by norm_num) g.cap2
  have hble : ∀ x ∈ B, x ≤ b := by
    intro x hx
    rcases hb with h0 | hlt
    · rw [card_zero_of_count_zero g h0] at hx
      exact absurd hx (Finset.not_mem_empty x)
    · exact le_of_lt (lt_of_le_of_lt (g.bucket_le x hx) hlt)
  have hnotmem : b ∉ B := by
    intro hmem
    rcases hb with h0 | hlt
    · rw [card_zero_of_count_zero g h0] at hmem
      exact absurd hmem (Finset.not_mem_empty b)
    · exact absurd hlt (not_lt.mpr (g.bucket_le b hmem))
  have hcard : (insert b B).card = B.card + 1 :=
    Finset.card_insert_of_not_mem hnotmem
  have hfront2 : ((m.push_front b p).widen_front p).front <
      ((m.push_front b p).widen_front p).capacity := by
    simpa using pushed_front_lt hcap
  have hsf : ((m.push_front b p).widen_front p).starts
      ((m.push_front b p).widen_front p).front = b := by
    rw [← nth_start_zero_eq _ hfront2]
    exact push_widen_nth_start_zero m b p hcap
  refine ⟨g.cap2, hfront2, min_le_right _ _, ?_, ?_, ?_, ?_, ?_⟩
  · show min (m.count + 1) m.capacity = min (insert b B).card m.capacity
    rw [hcard]
    have hc := g.count_eq
    omega
  · intro _
    rw [hsf]
    exact Finset.mem_insert_self b B
  · intro x hx
    rw [hsf]
    rcases Finset.mem_insert.mp hx with h1 | h1
    · exact le_of_eq h1
    · exact hble x h1
  · intro i hi
    have hi' : i + 1 < min (m.count + 1) m.capacity := hi
    rcases Nat.eq_zero_or_pos i with h0 | h1
    · subst h0
      rw [push_widen_nth_start m b p hcap (le_refl 1) (by omega),
        push_widen_nth_start_zero m b p hcap]
      have hcount : 0 < m.count := by omega
      rcases hb with hz | hlt
      · omega
      · show m.nth_start 0 < b
        rw [nth_start_zero_eq m g.front_lt]
        exact hlt
    · rw [push_widen_nth_start m b p hcap (by omega) (by omega),
        push_widen_nth_start m b p hcap (by omega) (by omega)]
      have hd := g.start_decr (i - 1) (by omega)
      have hii : i - 1 + 1 = i := by omega
      rw [hii] at hd
      show m.nth_start (i + 1 - 1) < m.nth_start (i - 1)
      have hjj : i + 1 - 1 = i := by omega
      rw [hjj]
      exact hd
  · intro i hi
    have hi' : i < min (m.count + 1) m.capacity := hi
    rcases Nat.eq_zero_or_pos i with h0 | h1
    · subst h0
      rw [push_widen_nth_low_zero m b p hcap, push_widen_nth_high_zero m b p hcap]
    · rw [push_widen_nth_low m b p hcap (by omega) (by omega),
        push_widen_nth_high m b p hcap (by omega) (by omega)]
      exact g.low_le_high (i - 1) (by omega)

lemma widen_ok {m : candle_model} {B : Finset Nat} (g : candle_ok m B)
    (p : ℚ) (hcount : 0 < m.count) :
    candle_ok (m.widen_front p) (insert (m.starts m.front) B) := by
  have hins : insert (m.starts m.front) B = B :=
    Finset.insert_eq_self.mpr (g.front_mem hcount)
  rw [hins]
  refine ⟨g.cap2, g.front_lt, g.count_le, g.count_eq, g.front_mem, g.bucket_le,
    ?_, ?_⟩
  · intro i hi
    rw [widen_nth_start, widen_nth_start]
    exact g.start_decr i hi
  · intro i hi
    have hiM : i < m.count := hi
    have hiC : i < m.capacity := lt_of_lt_of_le hiM g.count_le
    rcases Nat.eq_zero_or_pos i with h0 | h1
    · subst h0
      rw [widen_nth_low_zero m p g.front_lt, widen_nth_high_zero m p g.front_lt]
      exact le_trans (min_le_right _ _) (le_max_right _ _)
    · rw [widen_nth_low m p g.front_lt h1 hiC, widen_nth_high m p g.front_lt h1 hiC]
      exact g.low_le_high i hiM

lemma add_trade_ok {m m' : candle_model} {B : Finset Nat} {tr : price_time}
    (g : candle_ok m B) (hsucc : m.add_trade tr = some m') :
    candle_ok m' (insert (floor_time tr.time m.candle_ns) B) ∧
      m'.capacity = m.capacity ∧ m'.candle_ns = m.candle_ns ∧
      m'.nth_start 0 = floor_time tr.time m.candle_ns := by
  have hcap : 0 < m.capacity := lt_of_lt_of_le (by norm_num) g.cap2
  simp only [candle_model.add_trade] at hsucc
  set p := as_interval tr.price with hp
  set b := floor_time tr.time m.candle_ns with hbdef
  by_cases hpush : m.count = 0 ∨ m.starts m.front < b
  · rw [if_pos hpush] at hsucc
    have hcond : (m.push_front b p).starts ((m.push_front b p).front) = b := by
      simp only [push_front_starts, push_front_front, Function.update_same]
    rw [hcond, if_pos rfl] at hsucc
    obtain rfl : (m.push_front b p).widen_front p = m' := Option.some.inj hsucc
    exact ⟨push_widen_ok g b p hpush, rfl, rfl,
      push_widen_nth_start_zero m b p hcap⟩
  · rw [if_neg hpush] at hsucc
    push_neg at hpush
    obtain ⟨hc0, _hble⟩ := hpush
    by_cases heq : b = m.starts m.front
    · rw [if_pos heq] at hsucc
      obtain rfl : m.widen_front p = m' := Option.some.inj hsucc
      have hcount : 0 < m.count := Nat.pos_of_ne_zero hc0
      have hok := widen_ok g p hcount
      rw [← heq] at hok
      refine ⟨hok, rfl, rfl, ?_⟩
      rw [widen_nth_start, nth_start_zero_eq m g.front_lt]
      exact heq.symm
    · rw [if_neg heq] at hsucc
      exact Option.noConfusion hsucc

lemma getLastD_ne_nil {α : Type u} {l : List α} (h : l ≠ []) (a b : α) :
    l.getLastD a = l.getLastD b := by
  cases l with
  | nil => exact absurd rfl h
  | cons x xs => rw [List.getLastD_cons, List.getLastD_cons]

lemma add_trades_ok {ts : List price_time} {m m' : candle_model} {B : Finset Nat}
    (g : candle_ok m B) (hadd : add_trades m ts = some m') :
    candle_ok m' (B ∪ (buckets m.candle_ns ts).toFinset) ∧
      m'.capacity = m.capacity ∧ m'.candle_ns = m.candle_ns ∧
      (ts ≠ [] → m'.nth_start 0 =
        floor_time (ts.getLastD default_trade).time m.candle_ns) := by
  induction ts generalizing m B with
  | nil =>
    obtain rfl : m = m' := Option.some.inj hadd
    exact ⟨by simpa [buckets] using g, rfl, rfl, fun h => absurd rfl h⟩
  | cons t ts ih =>
    rw [add_trades] at hadd
    cases h1 : m.add_trade t with
    | none =>
      rw [h1] at hadd
      exact Option.noConfusion hadd
    | some m1 =>
      rw [h1] at hadd
      obtain ⟨g1, hcap1, hns1, hn1⟩ := add_trade_ok g h1
      obtain ⟨g2, hcap2, hns2, hlast⟩ := ih g1 hadd
      rw [hns1] at g2 hlast
      have hset : insert (floor_time t.time m.candle_ns) B
          ∪ (buckets m.candle_ns ts).toFinset
          = B ∪ (buckets m.candle_ns (t :: ts)).toFinset := by
        simp only [buckets, List.map_cons, List.toFinset_cons]
        ext y
        simp only [Finset.mem_union, Finset.mem_insert]
        tauto
      rw [hset] at g2
      refine ⟨g2, hcap2.trans hcap1, hns2.trans hns1, fun _ => ?_⟩
      by_cases hts : ts = []
      · subst hts
        obtain rfl : m1 = m' := Option.some.inj hadd
        rw [List.getLastD_cons, List.getLastD_nil]
        exact hn1
      · rw [List.getLastD_cons, getLastD_ne_nil hts t default_trade]
        exact hlast hts

lemma mk_candle_model_inv {lb : Nat} {dur : Int} {m0 : candle_model}
    (h : mk_candle_model (some lb) (some dur) = some m0) :
    m0.capacity = 1 + lb ∧ m0.candle_ns = dur ∧ m0.count = 0 ∧ m0.front = 0 ∧
      2 ≤ m0.capacity ∧ 0 < dur := by
  simp only [mk_candle_model, Option.getD_some] at h
  by_cases hc : 1 < 1 + lb ∧ 0 < dur
  · rw [if_pos hc] at h
    obtain rfl := Option.some.inj h
    exact ⟨rfl, rfl, rfl, rfl, hc.1, hc.2⟩
  · rw [if_neg hc] at h
    exact Option.noConfusion h

lemma mk_candle_ok {lb : Nat} {dur : Int} {m0 : candle_model}
    (h : mk_candle_model (some lb) (some dur) = some m0) : candle_ok m0 ∅ := by
  obtain ⟨hcap, hns, hcnt, hfr, hcap2, hdur⟩ := mk_candle_model_inv h
  refine ⟨hcap2, ?_, ?_, ?_, ?_, ?_, ?_, ?_⟩
  · rw [hfr]
    omega
  · rw [hcnt]
    omega
  · rw [hcnt]
    simp
  · intro hc
    rw [hcnt] at hc
    omega
  · intro x hx
    exact absurd hx (Finset.not_mem_empty x)
  · intro i hi
    rw [hcnt] at hi
    omega
  · intro i hi
    rw [hcnt] at hi
    omega

lemma decr_trans {f : Nat → Nat} {n : Nat}
    (h : ∀ i, i + 1 < n → f (i + 1) < f i) :
    ∀ i j, i < j → j < n → f j < f i := by
  intro i j
  induction j with
  | zero => omega
  | succ k ih =>
    intro hij hjn
    rcases Nat.lt_or_ge i k with h1 | h2
    · exact lt_trans (h k hjn) (ih h1 (by omega))
    · have h3 : i = k := by omega
      subst h3
      exact h i hjn

lemma eval_volatility_some_none_iff (m : candle_model) :
    m.eval_volatility = some none ↔ m.count < m.capacity := by
  unfold candle_model.eval_volatility candle_model.eval_vol_pairs
  by_cases h1 : m.count ≤ m.capacity
  · rw [if_pos h1]
    by_cases h2 : m.count < m.capacity
    · rw [if_pos h2]
      simp [h2]
    · rw [if_neg h2]
      cases h3 : m.vol_triples (m.count - 1) with
      | none => simp [h2]
      | some l => simp [h2]
  · rw [if_neg h1]
    constructor
    · intro h
      exact Option.noConfusion h
    · intro h
      omega

/-- C2: for every monotone sequence of trades fed to the candle model
(starting from a freshly constructed model with `lookback = lb`), the
volatility evaluation — `eval_at_time t` for every `t`, which ignores its
timestamp argument and equals `eval_volatility` — returns the absent optional
iff fewer than `lb + 1` distinct candle buckets have been seen. -/
theorem candle_eval_absent_iff_warmup (lb : Nat) (dur : Int)
    (m0 m' : candle_model) (ts : List price_time)
    (hmk : mk_candle_model (some lb) (some dur) = some m0)
    (hmono : List.Chain' (fun a b => a.time ≤ b.time) ts)
    (hadd : add_trades m0 ts = some m') :
    ∀ t : Nat, m'.eval_at_time t = m'.eval_volatility ∧
      (m'.eval_at_time t = some none ↔
        (buckets dur ts).toFinset.card < lb + 1) := by
  obtain ⟨hcap0, hns0, _, _, _, _⟩ := mk_candle_model_inv hmk
  have g0 : candle_ok m0 ∅ := mk_candle_ok hmk
  obtain ⟨g, hcap, hns, _⟩ := add_trades_ok g0 hadd
  intro t
  refine ⟨rfl, ?_⟩
  have he : m'.eval_at_time t = m'.eval_volatility := rfl
  rw [he, eval_volatility_some_none_iff]
  have hce := g.count_eq
  rw [Finset.empty_union, hns0] at hce
  have hcc : m'.capacity = 1 + lb := hcap.trans hcap0
  omega

theorem candle_eval_absent_iff_warmup_witness :
    mk_candle_model (some 1) (some 1) = some c2w_m0 ∧
      List.Chain' (fun a b => a.time ≤ b.time)
        [({ price := 5, time := 0 } : price_time)] ∧
      add_trades c2w_m0 [{ price := 5, time := 0 }] = some c2w_m1 ∧
      (c2w_m1.eval_at_time 3 = c2w_m1.eval_volatility ∧
        (c2w_m1.eval_at_time 3 = some none ↔
          (buckets 1 [{ price := 5, time := 0 }]).toFinset.card < 1 + 1)) :=
  ⟨rfl, by simp, by rfl,
    candle_eval_absent_iff_warmup 1 1 c2w_m0 c2w_m1 _ rfl (by simp) (by rfl) 3⟩

/-- C4: after every monotone (non-empty) sequence of `add_trade` calls on a
freshly constructed candle model, the ring invariants hold: stored candle
starts are strictly decreasing from front to back, the front candle's start is
`floor_time` of the latest trade's time, and `low ≤ high` for every stored
candle. -/
theorem candle_ring_invariants (lb : Nat) (dur : Int) (m0 m' : candle_model)
    (tr : price_time) (ts : List price_time)
    (hmk : mk_candle_model (some lb) (some dur) = some m0)
    (hmono : List.Chain' (fun a b => a.time ≤ b.time) (tr :: ts))
    (hadd : add_trades m0 (tr :: ts) = some m') :
    (∀ i j, i < j → j < m'.count → m'.nth_start j < m'.nth_start i) ∧
      m'.nth_start 0 =
        floor_time ((tr :: ts).getLastD default_trade).time dur ∧
      (∀ i, i < m'.count → m'.nth_low i ≤ m'.nth_high i) := by
  obtain ⟨hcap0, hns0, _, _, _, _⟩ := mk_candle_model_inv hmk
  have g0 : candle_ok m0 ∅ := mk_candle_ok hmk
  obtain ⟨g, _, _, hlast⟩ := add_trades_ok g0 hadd
  refine ⟨decr_trans g.start_decr, ?_, g.low_le_high⟩
  have h1 := hlast (by simp)
  rw [hns0] at h1
  exact h1

theorem candle_ring_invariants_witness :
    mk_candle_model (some 1) (some 1) = some c4w_m0 ∧
      List.Chain' (fun a b => a.time ≤ b.time)
        [({ price := 5, time := 0 } : price_time), { price := 7, time := 1 }] ∧
      add_trades c4w_m0 [{ price := 5, time := 0 }, { price := 7, time := 1 }]
        = some c4w_m1 ∧
      ((∀ i j, i < j → j < c4w_m1.count → c4w_m1.nth_start j < c4w_m1.nth_start i) ∧
        c4w_m1.nth_start 0 =
          floor_time (([({ price := 5, time := 0 } : price_time),
            { price := 7, time := 1 }]).getLastD default_trade).time 1 ∧
        (∀ i, i < c4w_m1.count → c4w_m1.nth_low i ≤ c4w_m1.nth_high i)) :=
  ⟨rfl, by simp, by rfl,
    candle_ring_invariants 1 1 c4w_m0 c4w_m1 _ _ rfl (by simp) (by rfl)⟩

/-- C10: if the incoming trade's bucket equals the front candle's bucket,
`add_trade` succeeds with no precondition failure even when the trade's time
is strictly less than the previous trade's time: the front candle widens with
the price and `last_trade` is overwritten with the older-timestamped trade. -/
theorem add_trade_same_bucket_overwrites (m : standard_price_model) (p : Int)
    (t : Nat) (lt : price_time)
    (hlast : m.last_trade = some lt) (ht : t < lt.time)
    (hcount : 0 < m.vol.count)
    (hbucket : floor_time t m.vol.candle_ns = m.vol.starts m.vol.front) :
    ∃ m', m.add_trade { price := p, time := t } = some m' ∧
      m'.last_trade = some { price := p, time := t } ∧
      m'.vol.front = m.vol.front ∧ m'.vol.count = m.vol.count ∧
      m'.vol.starts = m.vol.starts ∧
      m'.vol.highs m'.vol.front = max (m.vol.highs m.vol.front) (as_interval p) ∧
      m'.vol.lows m'.vol.front = min (m.vol.lows m.vol.front) (as_interval p) := by
  have hnopush : ¬ (m.vol.count = 0 ∨
      m.vol.starts m.vol.front < floor_time t m.vol.candle_ns) := by
    push_neg
    exact ⟨by omega, by rw [hbucket]⟩
  have hcadd : m.vol.add_trade { price := p, time := t }
      = some (m.vol.widen_front (as_interval p)) := by
    simp only [candle_model.add_trade]
    rw [if_neg hnopush, if_pos hbucket]
  refine ⟨{ m with
      vol := m.vol.widen_front (as_interval p),
      range_since_eval := some ((match m.range_since_eval with
        | none => ({ high := p, low := p } : price_range)
        | some r => r).add_price p),
      last_trade := some { price := p, time := t } }, ?_, rfl, rfl, rfl, rfl,
      ?_, ?_⟩
  · simp only [standard_price_model.add_trade, hcadd]
  · simp only [widen_front_highs, widen_front_front, Function.update_same]
  · simp only [widen_front_lows, widen_front_front, Function.update_same]

theorem add_trade_same_bucket_overwrites_witness :
    c10w_m.last_trade = some { price := 100, time := 7 } ∧ 5 < 7 ∧
      0 < c10w_m.vol.count ∧
      floor_time 5 c10w_m.vol.candle_ns = c10w_m.vol.starts c10w_m.vol.front ∧
      ∃ m', c10w_m.add_trade { price := 50, time := 5 } = some m' ∧
        m'.last_trade = some { price := 50, time := 5 } ∧
        m'.vol.front = c10w_m.vol.front ∧ m'.vol.count = c10w_m.vol.count ∧
        m'.vol.starts = c10w_m.vol.starts ∧
        m'.vol.highs m'.vol.front
          = max (c10w_m.vol.highs c10w_m.vol.front) (as_interval 50) ∧
        m'.vol.lows m'.vol.front
          = min (c10w_m.vol.lows c10w_m.vol.front) (as_interval 50) :=
  ⟨rfl, by norm_num, by norm_num [c10w_m, c10w_vol], by rfl,
    add_trade_same_bucket_overwrites c10w_m 50 5 { price := 100, time := 7 }
      rfl (by norm_num) (by norm_num [c10w_m, c10w_vol]) (by rfl)⟩

lemma vol_triple_eq_of_isSome {m : candle_model} {i : Nat}
    (h : (m.vol_triple i).isSome) : m.vol_triple i = some (m.triple_val i) := by
  simp only [candle_model.vol_triple] at h ⊢
  split
  · rfl
  · rename_i hc
    rw [if_neg hc] at h
    simp at h

lemma vol_triples_eq_map {m : candle_model} :
    ∀ n, (∀ i, i < n → (m.vol_triple i).isSome) →
      m.vol_triples n = some ((List.range n).map m.triple_val)
  | 0, _ => by simp [candle_model.vol_triples]
  | n + 1, h => by
    have h1 := vol_triples_eq_map n (fun i hi => h i (by omega))
    have h2 := vol_triple_eq_of_isSome (h n (by omega))
    simp only [candle_model.vol_triples, h1, h2]
    rw [List.range_succ, List.map_append]
    rfl

lemma triple_val_fst (m : candle_model) (i : Nat) :
    (m.triple_val i).1 = max (m.nth_high i) (m.nth_high (i + 1)) := by
  simp only [candle_model.triple_val, candle_model.nth_high]
  rw [Nat.mod_add_mod, Nat.add_assoc]

lemma triple_val_snd (m : candle_model) (i : Nat) :
    (m.triple_val i).2.1 = min (m.nth_low i) (m.nth_low (i + 1)) := by
  simp only [candle_model.triple_val, candle_model.nth_low]
  rw [Nat.mod_add_mod, Nat.add_assoc]

lemma triple_val_dt (m : candle_model) (i : Nat) :
    (m.triple_val i).2.2 =
      diff_times (add_time (m.nth_start i) m.candle_ns) (m.nth_start (i + 1)) := by
  simp only [candle_model.triple_val, candle_model.nth_start]
  rw [Nat.mod_add_mod, Nat.add_assoc]

lemma list_sum_int_cast (l : List Int) :
    ((l.sum : Int) : ℝ) = (l.map fun x : Int => (x : ℝ)).sum := by
  induction l with
  | nil => simp
  | cons x xs ih => simp [ih]

/-- C1: when the candle ring is full (`count = lookback + 1 = capacity`) and
the loop assertions pass, `eval_volatility` returns
`sqrt(numer / denom · NS_PER_YEAR)` where `numer` sums
`ln(max(cur.high, prev.high) / min(cur.low, prev.low))²` and `denom` sums
`cur.start + candle_duration_ns - prev.start` over adjacent pairs of candles
from newest to oldest, scaled after the loop by `4 · ln 2`.  The bound
hypotheses keep the `uint64` timestamp arithmetic of `cur_end` free of
wrap-around, as in any run of the source. -/
theorem eval_volatility_full_ring_formula (m : candle_model) (lb : Nat)
    (hcap : m.capacity = lb + 1) (hcount : m.count = lb + 1)
    (hdur : 0 < m.candle_ns)
    (hs : ∀ i, i < m.count → m.nth_start i < 2 ^ 63)
    (hb : ∀ i, i < m.count → (m.nth_start i : Int) + m.candle_ns < 2 ^ 63)
    (hok : ∀ i, i < m.count - 1 → (m.vol_triple i).isSome) :
    m.eval_volatility = some (some (Real.sqrt
      (m.spec_numer / ((m.spec_denom : ℝ) * (4 * Real.log 2))
        * (NS_PER_YEAR : ℝ)))) := by
  have htr := vol_triples_eq_map (m := m) (m.count - 1) hok
  have hnum : (((List.range (m.count - 1)).map m.triple_val).map
      (fun t => Real.log ((t.1 : ℝ) / (t.2.1 : ℝ)) ^ 2)).sum = m.spec_numer := by
    unfold candle_model.spec_numer
    rw [List.map_map]
    refine congrArg List.sum (List.map_congr_left fun i _ => ?_)
    simp only [Function.comp_apply, triple_val_fst, triple_val_snd]
  have hden : (((List.range (m.count - 1)).map m.triple_val).map
      (fun t => ((t.2.2 : Int) : ℝ))).sum = ((m.spec_denom : Int) : ℝ) := by
    unfold candle_model.spec_denom
    rw [List.map_map, list_sum_int_cast, List.map_map]
    refine congrArg List.sum (List.map_congr_left fun i hi => ?_)
    have hi' : i < m.count - 1 := List.mem_range.mp hi
    simp only [Function.comp_apply, triple_val_dt]
    rw [diff_times_add_time (hs i (by omega)) (hs (i + 1) (by omega)) hdur
      (hb i (by omega))]
  have hv : vol_value ((List.range (m.count - 1)).map m.triple_val)
      = Real.sqrt (m.spec_numer / ((m.spec_denom : ℝ) * (4 * Real.log 2))
        * (NS_PER_YEAR : ℝ)) := by
    simp only [vol_value]
    rw [hnum, hden]
    exact congrArg Real.sqrt (by ring)
  unfold candle_model.eval_volatility candle_model.eval_vol_pairs
  rw [if_pos (by omega : m.count ≤ m.capacity),
    if_neg (by omega : ¬ m.count < m.capacity), htr]
  simp only [Option.map_some']
  rw [hv]

theorem eval_volatility_full_ring_formula_witness :
    c1w_m.capacity = 1 + 1 ∧ c1w_m.count = 1 + 1 ∧
      (0 : Int) < c1w_m.candle_ns ∧
      (∀ i, i < c1w_m.count → c1w_m.nth_start i < 2 ^ 63) ∧
      (∀ i, i < c1w_m.count → (c1w_m.nth_start i : Int) + c1w_m.candle_ns < 2 ^ 63) ∧
      (∀ i, i < c1w_m.count - 1 → (c1w_m.vol_triple i).isSome) ∧
      c1w_m.eval_volatility = some (some (Real.sqrt
        (c1w_m.spec_numer / ((c1w_m.spec_denom : ℝ) * (4 * Real.log 2))
          * (NS_PER_YEAR : ℝ)))) :=
  ⟨rfl, rfl, by norm_num [c1w_m], by decide, by decide, by decide,
    eval_volatility_full_ring_formula c1w_m 1 rfl rfl (by norm_num [c1w_m])
      (by decide) (by decide) (by decide)⟩

/-! ## Lemmas about the standard price model -/

lemma spm_erase_range_eq (m : standard_price_model)
    (h : m.range_since_eval = none) :
    { m with range_since_eval := none } = m := by
  rw [← h]

lemma spm_eval_success {m : standard_price_model} {now : Nat} {lt : price_time}
    {vp : Option (List (ℚ × ℚ × Int))}
    (hlast : m.last_trade = some lt)
    (h0 : 0 ≤ diff_times now lt.time)
    (h1 : diff_times now lt.time ≤ m.timeout_ns)
    (hvp : m.vol.eval_vol_pairs = some vp) :
    m.eval_at_time now = some (some (lt.price, spm_conf m now lt vp),
      { m with range_since_eval := none }) := by
  have hvol : m.vol.eval_at_time now = some (vp.map vol_value) := by
    unfold candle_model.eval_at_time candle_model.eval_volatility
    rw [hvp]
    rfl
  simp only [standard_price_model.eval_at_time, hlast]
  rw [if_pos h0, if_neg (not_lt.mpr h1)]
  simp only [hvol]
  cases hr : m.range_since_eval with
  | some r => simp only [spm_conf, hr]
  | none =>
    simp only [spm_conf, hr]
    have he := spm_erase_range_eq m hr
    rw [hlast] at he
    rw [he]

/-- C3: when the last trade exists and `diff_times(now, last_trade.time)`
exceeds `timeout_ns`, `eval_at_time` returns the absent estimate and the
state is completely unchanged — in particular `range_since_eval` is preserved
and the volatility model is neither queried (no hypothesis about its
assertions is needed) nor mutated. -/
theorem spm_eval_stale_frame (m : standard_price_model) (now : Nat)
    (lt : price_time)
    (hlast : m.last_trade = some lt)
    (hto : 0 ≤ m.timeout_ns)
    (hstale : m.timeout_ns < diff_times now lt.time) :
    m.eval_at_time now = some (none, m) := by
  simp only [standard_price_model.eval_at_time, hlast]
  rw [if_pos (le_of_lt (lt_of_le_of_lt hto hstale)), if_pos hstale]

theorem spm_eval_stale_frame_witness :
    c10w_m.last_trade = some { price := 100, time := 7 } ∧
      (0 : Int) ≤ c10w_m.timeout_ns ∧
      c10w_m.timeout_ns < diff_times 100 ({ price := 100, time := 7 } : price_time).time ∧
      c10w_m.eval_at_time 100 = some (none, c10w_m) :=
  ⟨rfl, by norm_num [c10w_m], by decide,
    spm_eval_stale_frame c10w_m 100 { price := 100, time := 7 } rfl
      (by norm_num [c10w_m]) (by decide)⟩

/-- C9: when the last trade exists, `0 ≤ elapsed ≤ timeout_ns` and the
volatility model's own assertions pass, `eval_at_time` returns an estimate
whose price is `last_trade.price`, and the only state change is the clearing
of `range_since_eval`: every other field — `last_trade`, the candle ring, the
configuration — is untouched. -/
theorem spm_eval_success_frame (m : standard_price_model) (now : Nat)
    (lt : price_time) (vp : Option (List (ℚ × ℚ × Int)))
    (hlast : m.last_trade = some lt)
    (h0 : 0 ≤ diff_times now lt.time)
    (h1 : diff_times now lt.time ≤ m.timeout_ns)
    (hvp : m.vol.eval_vol_pairs = some vp) :
    ∃ c : ℝ, m.eval_at_time now
      = some (some (lt.price, c), { m with range_since_eval := none }) :=
  ⟨spm_conf m now lt vp, spm_eval_success hlast h0 h1 hvp⟩

theorem spm_eval_success_frame_witness :
    c9w_m.last_trade = some { price := 100, time := 5 } ∧
      0 ≤ diff_times 10 ({ price := 100, time := 5 } : price_time).time ∧
      diff_times 10 ({ price := 100, time := 5 } : price_time).time
        ≤ c9w_m.timeout_ns ∧
      c9w_m.vol.eval_vol_pairs = some none ∧
      ∃ c : ℝ, c9w_m.eval_at_time 10
        = some (some (100, c), { c9w_m with range_since_eval := none }) :=
  ⟨rfl, by decide, by decide, rfl,
    spm_eval_success_frame c9w_m 10 { price := 100, time := 5 } none rfl
      (by decide) (by decide) rfl⟩

/-- C8: immediately re-evaluating at the same timestamp after a successful
evaluation, with no intervening trades, yields the same price, the same
(unchanged) state, and a confidence computed without the `range_since_eval`
term: `max(vol · sqrt(years) · |price|, min_interval)` (prices are
non-negative by the domain precondition, under which `|price| = price` as the
source computes it). -/
theorem spm_eval_repeat_same_time (m : standard_price_model) (now : Nat)
    (lt : price_time) (vp : Option (List (ℚ × ℚ × Int)))
    (hlast : m.last_trade = some lt)
    (h0 : 0 ≤ diff_times now lt.time)
    (h1 : diff_times now lt.time ≤ m.timeout_ns)
    (hvp : m.vol.eval_vol_pairs = some vp)
    (hp : 0 ≤ lt.price) :
    ∃ c1 : ℝ, m.eval_at_time now
        = some (some (lt.price, c1), { m with range_since_eval := none }) ∧
      ({ m with range_since_eval := none } : standard_price_model).eval_at_time now
        = some (some (lt.price,
            max (((vp.map vol_value).getD ((m.init_volatility : ℚ) : ℝ))
              * Real.sqrt (((max (diff_times now lt.time) m.min_slot_ns : Int) : ℝ)
                  / ((NS_PER_YEAR : Int) : ℝ))
              * |((lt.price : Int) : ℝ)|) ((m.min_interval : ℚ) : ℝ)),
          { m with range_since_eval := none }) := by
  refine ⟨spm_conf m now lt vp, spm_eval_success hlast h0 h1 hvp, ?_⟩
  have h2 := @spm_eval_success { m with range_since_eval := none } now lt vp
    hlast h0 h1 hvp
  rw [spm_erase_range_eq { m with range_since_eval := none } rfl] at h2
  rw [h2]
  have habs : |((lt.price : Int) : ℝ)| = ((lt.price : Int) : ℝ) :=
    abs_of_nonneg (by exact_mod_cast hp)
  rw [habs]
  rfl

theorem spm_eval_repeat_same_time_witness :
    c8w_m.last_trade = some { price := 100, time := 5 } ∧
      0 ≤ diff_times 10 ({ price := 100, time := 5 } : price_time).time ∧
      diff_times 10 ({ price := 100, time := 5 } : price_time).time
        ≤ c8w_m.timeout_ns ∧
      c8w_m.vol.eval_vol_pairs = some none ∧
      (0 : Int) ≤ ({ price := 100, time := 5 } : price_time).price ∧
      ∃ c1 : ℝ, c8w_m.eval_at_time 10
          = some (some (100, c1), { c8w_m with range_since_eval := none }) ∧
        ({ c8w_m with range_since_eval := none } : standard_price_model).eval_at_time 10
          = some (some (100,
              max (((Option.map vol_value none).getD ((c8w_m.init_volatility : ℚ) : ℝ))
                * Real.sqrt (((max (diff_times 10 ({ price := 100, time := 5 } : price_time).time)
                      c8w_m.min_slot_ns : Int) : ℝ)
                    / ((NS_PER_YEAR : Int) : ℝ))
                * |((100 : Int) : ℝ)|) ((c8w_m.min_interval : ℚ) : ℝ)),
            { c8w_m with range_since_eval := none }) :=
  ⟨rfl, by decide, by decide, rfl, by decide,
    spm_eval_repeat_same_time c8w_m 10 { price := 100, time := 5 } none rfl
      (by decide) (by decide) rfl (by decide)⟩

/-! ## Claim C6: the default single-trade scenario -/

lemma spm6_eval_eq : spm6_eval
    = some (some (100, spm6_conf), { spm6_m1 with range_since_eval := none }) :=
  @spm_eval_success spm6_m1 0 { price := 100, time := 0 } none
    (by rfl) (by decide) (by decide) (by rfl)

lemma spm6_conf_eq : spm6_conf
    = max (Real.sqrt ((500000000 : ℝ) / 31536000000000000) * 100) (1 / 100) := by
  have h1 : spm6_conf = max (max (((1 : ℚ) : ℝ)
      * Real.sqrt (((500000000 : Int) : ℝ) / ((31536000000000000 : Int) : ℝ))
      * ((100 : Int) : ℝ)) ((DEFAULT_MIN_INTERVAL : ℚ) : ℝ))
      ((({ high := 100, low := 100 } : price_range).interval : ℚ) : ℝ) := by
    rfl
  have hI : ({ high := 100, low := 100 } : price_range).interval = 0 := by
    norm_num [price_range.interval, as_interval]
  have hM : ((DEFAULT_MIN_INTERVAL : ℚ) : ℝ) = 1 / 100 := by
    simp only [DEFAULT_MIN_INTERVAL]
    rw [Rat.mkRat_eq_div]
    push_cast
    norm_num
  rw [h1, hI, hM]
  push_cast
  rw [one_mul]
  rw [max_eq_left (le_trans (by norm_num : (0 : ℝ) ≤ 1 / 100) (le_max_right _ _))]

lemma spm6_conf_lb : (125 / 10000 : ℝ) < spm6_conf := by
  rw [spm6_conf_eq]
  refine lt_max_of_lt_left ?_
  have h : (125 / 10000 / 100 : ℝ) < Real.sqrt (500000000 / 31536000000000000) := by
    rw [Real.lt_sqrt (by norm_num)]
    norm_num
  calc (125 / 10000 : ℝ) = 125 / 10000 / 100 * 100 := by norm_num
    _ < Real.sqrt (500000000 / 31536000000000000) * 100 :=
        mul_lt_mul_of_pos_right h (by norm_num)

lemma spm6_conf_ub : spm6_conf < (127 / 10000 : ℝ) := by
  rw [spm6_conf_eq, max_lt_iff]
  constructor
  · have h : Real.sqrt (500000000 / 31536000000000000) < (127 / 10000 / 100 : ℝ) := by
      rw [Real.sqrt_lt' (by norm_num)]
      norm_num
    calc Real.sqrt (500000000 / 31536000000000000) * 100
        < 127 / 10000 / 100 * 100 := mul_lt_mul_of_pos_right h (by norm_num)
      _ = 127 / 10000 := by norm_num
  · norm_num

/-- C6 counterexample: with the default configuration, after the single trade
`(price = 100, t = 0)`, `eval_at_time 0` returns price `100` with confidence
`spm6_conf` — but, contrary to the claim's "approximately 0.01 with the floor
dominating", the confidence strictly exceeds `0.012` (so it is not ≈ `0.01`)
and strictly exceeds the floor `min_interval = 0.01` (so the floor does not
dominate). -/
theorem default_single_trade_eval_cex :
    spm6_eval.map Prod.fst = some (some (100, spm6_conf)) ∧
      (1 / 100 : ℝ) < spm6_conf ∧ (12 / 1000 : ℝ) < spm6_conf := by
  refine ⟨?_, lt_trans (by norm_num) spm6_conf_lb,
    lt_trans (by norm_num) spm6_conf_lb⟩
  rw [spm6_eval_eq]
  rfl

/-- C6 (amended): with default configuration, after a single trade
`(price = 100, t = 0)`, `eval_at_time 0` returns `price = 100` and
`conf = max(min_interval, init_vol · sqrt(min_slot_ns / NS_PER_YEAR) · 100)
= max(0.01, sqrt(5·10⁸ / 3.1536·10¹⁶) · 100) ≈ 0.0126`, with the volatility
term dominating the floor. -/
theorem default_single_trade_eval_amended :
    spm6_eval = some (some (100, spm6_conf),
        { spm6_m1 with range_since_eval := none }) ∧
      spm6_conf = max (Real.sqrt ((500000000 : ℝ) / 31536000000000000) * 100)
        (1 / 100) ∧
      (125 / 10000 : ℝ) < spm6_conf ∧ spm6_conf < (127 / 10000 : ℝ) :=
  ⟨spm6_eval_eq, spm6_conf_eq, spm6_conf_lb, spm6_conf_ub⟩

/-! ## Claim C5: the replay driver's tie-break -/

lemma fed_trades_cons_inl (t : price_time) (l : List (price_time ⊕ Nat)) :
    fed_trades (Sum.inl t :: l) = t :: fed_trades l := rfl

lemma fed_trades_cons_inr (n : Nat) (l : List (price_time ⊕ Nat)) :
    fed_trades (Sum.inr n :: l) = fed_trades l := rfl

lemma fed_trades_map_inl (l : List price_time) :
    fed_trades (l.map Sum.inl) = l := by
  induction l with
  | nil => rfl
  | cons t ts ih => rw [List.map_cons, fed_trades_cons_inl, ih]

lemma fed_trades_append (l1 l2 : List (price_time ⊕ Nat)) :
    fed_trades (l1 ++ l2) = fed_trades l1 ++ fed_trades l2 := by
  simp [fed_trades]

lemma mem_takeWhile_pred {α : Type u} {p : α → Bool} :
    ∀ {l : List α} {x : α}, x ∈ l.takeWhile p → p x := by
  intro l
  induction l with
  | nil =>
    intro x h
    simp at h
  | cons a as ih =>
    intro x h
    by_cases hp : p a
    · rw [List.takeWhile_cons_of_pos hp] at h
      rcases List.mem_cons.mp h with rfl | h2
      · exact hp
      · exact ih h2
    · rw [List.takeWhile_cons_of_neg hp] at h
      simp at h

lemma takeWhile_eq_filter_sorted (e : Nat) :
    ∀ (l : List price_time), List.Pairwise (fun a b => a.time ≤ b.time) l →
      (l.takeWhile fun tr => tr.time < e) = l.filter fun tr => tr.time < e := by
  intro l
  induction l with
  | nil => intro _; rfl
  | cons t ts ih =>
    intro hp
    rcases List.pairwise_cons.mp hp with ⟨hall, htail⟩
    by_cases ht : t.time < e
    · rw [List.takeWhile_cons_of_pos (by simpa using ht),
        List.filter_cons_of_pos (by simpa using ht), ih htail]
    · rw [List.takeWhile_cons_of_neg (by simpa using ht),
        List.filter_cons_of_neg (by simpa using ht)]
      symm
      rw [List.filter_eq_nil_iff]
      intro a ha
      have h1 := hall a ha
      simp only [decide_eq_true_eq]
      omega

lemma run_schedule_inr_mem :
    ∀ (evals : List Nat) (trades : List price_time) (e : Nat),
      Sum.inr e ∈ run_schedule trades evals → e ∈ evals := by
  intro evals
  induction evals with
  | nil =>
    intro trades e h
    simp only [run_schedule] at h
    rcases List.mem_map.mp h with ⟨t, _, habs⟩
    exact absurd habs (by simp)
  | cons e0 es ih =>
    intro trades e h
    simp only [run_schedule] at h
    rcases List.mem_append.mp h with h1 | h1
    · rcases List.mem_map.mp h1 with ⟨t, _, habs⟩
      exact absurd habs (by simp)
    · rcases List.mem_cons.mp h1 with heq | h2
      · rw [Sum.inr.inj heq]
        exact List.mem_cons_self e0 es
      · exact List.mem_cons_of_mem e0 (ih _ e h2)

/-- C5: in the replay driver loop, when a trade and an evaluation share a
timestamp the evaluation runs first (the strict `>` in the trade branch):
for monotone trade and evaluation sequences, the trades scheduled before any
evaluation event at time `e` are exactly the trades whose timestamps are
strictly less than `e`, so each evaluation observes the model state produced
by exactly those trades. -/
theorem driver_eval_sees_strictly_earlier :
    ∀ (evals : List Nat) (trades : List price_time),
      List.Pairwise (fun a b => a.time ≤ b.time) trades →
      List.Pairwise (fun a b : Nat => a ≤ b) evals →
      ∀ (l1 l2 : List (price_time ⊕ Nat)) (e : Nat),
        run_schedule trades evals = l1 ++ Sum.inr e :: l2 →
        fed_trades l1 = trades.filter fun tr => tr.time < e
  | [], trades, _, _, l1, l2, e, hsplit => by
    exfalso
    have hmem : Sum.inr e ∈ run_schedule trades [] := by
      rw [hsplit]
      exact List.mem_append_right _ (List.mem_cons_self _ _)
    exact absurd (run_schedule_inr_mem [] trades e hmem) (List.not_mem_nil e)
  | e0 :: es, trades, htr, hev, l1, l2, e, hsplit => by
    rw [run_schedule] at hsplit
    rcases List.pairwise_cons.mp hev with ⟨hev0, hevt⟩
    have htw := takeWhile_eq_filter_sorted e0 trades htr
    rcases List.append_eq_append_iff.mp hsplit with hL | hR
    · rcases hL with ⟨a', ha1, ha2⟩
      cases a' with
      | nil =>
        rw [List.append_nil] at ha1
        rw [List.nil_append] at ha2
        injection ha2 with hx hy
        obtain rfl : e0 = e := Sum.inr.inj hx
        rw [ha1, fed_trades_map_inl, htw]
      | cons x a'' =>
        rw [List.cons_append] at ha2
        injection ha2 with hx hy
        have hmemR : Sum.inr e ∈ run_schedule
            (trades.dropWhile fun tr => tr.time < e0) es := by
          rw [hy]
          exact List.mem_append_right _ (List.mem_cons_self _ _)
        have he0e : e0 ≤ e := hev0 e (run_schedule_inr_mem es _ e hmemR)
        have hIH := driver_eval_sees_strictly_earlier es
          (trades.dropWhile fun tr => tr.time < e0)
          (List.Pairwise.sublist (List.dropWhile_sublist _) htr) hevt a'' l2 e hy
        rw [ha1, ← hx, fed_trades_append, fed_trades_cons_inr,
          fed_trades_map_inl, hIH]
        conv_rhs => rw [← List.takeWhile_append_dropWhile
          (fun tr => decide (tr.time < e0)) trades]
        rw [List.filter_append]
        congr 1
        symm
        rw [List.filter_eq_self]
        intro a ha
        have h1 : a.time < e0 := by simpa using mem_takeWhile_pred ha
        simp only [decide_eq_true_eq]
        omega
    · rcases hR with ⟨c', hc1, hc2⟩
      cases c' with
      | nil =>
        rw [List.append_nil] at hc1
        rw [List.nil_append] at hc2
        injection hc2 with hx hy
        obtain rfl : e = e0 := Sum.inr.inj hx
        rw [← hc1, fed_trades_map_inl, htw]
      | cons y c'' =>
        exfalso
        rw [List.cons_append] at hc2
        injection hc2 with hx _
        have hymem : y ∈ (trades.takeWhile fun tr => tr.time < e0).map Sum.inl := by
          rw [hc1]
          exact List.mem_append_right _ (List.mem_cons_self _ _)
        rcases List.mem_map.mp hymem with ⟨t, _, habs⟩
        rw [← hx] at habs
        exact absurd habs (by simp)

theorem driver_eval_sees_strictly_earlier_witness :
    List.Pairwise (fun a b => a.time ≤ b.time)
      [({ price := 1, time := 5 } : price_time)] ∧
    List.Pairwise (fun a b : Nat => a ≤ b) [5] ∧
    run_schedule [({ price := 1, time := 5 } : price_time)] [5]
      = [] ++ Sum.inr 5 :: [Sum.inl { price := 1, time := 5 }] ∧
    fed_trades []
      = [({ price := 1, time := 5 } : price_time)].filter fun tr => tr.time < 5 :=
  ⟨by simp, by simp, by decide,
    driver_eval_sees_strictly_earlier [5] [{ price := 1, time := 5 }]
      (by simp) (by simp) [] [Sum.inl { price := 1, time := 5 }] 5 (by decide)⟩
